import Mathlib

/-!
Verification of the semantic code-search indexing pipeline (auden).

This file gives a shallow embedding of the core data model and operations:
the embedding queue (`src/embedding_queue.rs`), the per-file aggregate and
span extractor (`src/parsers/strategy.rs`), the per-directory job counter
(`src/semantic_index.rs`), and the persistence layer (`src/surreal_db.rs`),
and proves or refutes the specified properties about them.
-/

/-- An embedding vector.  The concrete float values are irrelevant to every
property below (only emptiness, length and identity matter), so components
are modelled as integers. -/
abbrev EmbeddingVec := List Int

/-- `ContextDocument` from `src/parsers/strategy.rs`: one span extracted from
a file, with byte range, prompt-formatted content and content digest. -/
structure ContextDocument where
  start_byte : Nat
  end_byte : Nat
  content : String
  sha : List Nat
  deriving DecidableEq, Repr, Inhabited

/-- `FileContext` from `src/parsers/strategy.rs`: the per-file aggregate with
a fixed document list and a parallel slot list of embeddings (an empty slot
is the empty vector).  The path stands in for `FileDetails.path`. -/
structure FileContext where
  path : String
  documents : List ContextDocument
  embeddings : List EmbeddingVec
  deriving DecidableEq, Repr, Inhabited

/-- Helper for `FileContext.document_ids`: the loop over
`embeddings.iter().enumerate()` pushing the index of every empty slot,
with `i` the index of the head slot. -/
def emptyIds : List EmbeddingVec → Nat → List Nat
  | [], _ => []
  | e :: es, i => if e.isEmpty then i :: emptyIds es (i + 1) else emptyIds es (i + 1)

/-- `FileContext::document_ids` (strategy.rs lines 83-91): the indices of the
currently-empty embedding slots, in increasing order. -/
def FileContext.document_ids (fc : FileContext) : List Nat :=
  emptyIds fc.embeddings 0

/-- `FileContext::complete` (strategy.rs lines 92-95): true iff no embedding
slot is empty. -/
def FileContext.complete (fc : FileContext) : Bool :=
  !(fc.embeddings.any (fun embed => embed.isEmpty))

/-- `FileFragment` from `src/embedding_queue.rs`: a contiguous index range of
one file, the unit of batching.  The shared `Arc<Mutex<FileContext>>` is
modelled by an index `fileId` into a list of file contexts. -/
structure FileFragment where
  fileId : Nat
  start_idx : Nat
  end_idx : Nat
  deriving DecidableEq, Repr, Inhabited

/-- `EmbeddingQueue::queue_size` (embedding_queue.rs lines 96-101): the sum
over pending fragments of `(end_idx - start_idx) + 1`. -/
def queue_size (q : List FileFragment) : Nat :=
  (q.map (fun f => (f.end_idx - f.start_idx) + 1)).sum

/-- The span count a flush actually sends to the provider: `flush_queue`
collects `documents[idx]` for `idx` in `start_idx..end_idx` (exclusive), so
each fragment contributes `end_idx - start_idx` texts. -/
def spanCount (q : List FileFragment) : Nat :=
  (q.map (fun f => f.end_idx - f.start_idx)).sum

/-- Result of the id walk inside `EmbeddingQueue::queue_job`: the pending
queue left in `self.queue`, the queues handed to `flush_queue` (one entry
per flush, in order), and the final `current_idx` / `last_idx` values. -/
structure WalkResult where
  queue : List FileFragment
  flushes : List (List FileFragment)
  current_idx : Nat
  last_idx : Nat
  deriving DecidableEq, Repr

/-- The `for idx in ids` loop of `EmbeddingQueue::queue_job`
(embedding_queue.rs lines 114-128): increment `size`; when it hits 10 push
the fragment `current_idx..idx`, set `current_idx := idx` and flush (which
empties the pending queue); finally record `last_idx := idx`. -/
def embedWalk (fid : Nat) : List Nat → Nat → Nat → Nat → List FileFragment → WalkResult
  | [], _, current, last, q => ⟨q, [], current, last⟩
  | idx :: rest, size, current, last, q =>
    if size + 1 = 10 then
      let r := embedWalk fid rest (size + 1) idx idx []
      ⟨r.queue, (q ++ [⟨fid, current, idx⟩]) :: r.flushes, r.current_idx, r.last_idx⟩
    else
      embedWalk fid rest (size + 1) current idx q

/-- The `EmbeddingJob::Embed` arm of `EmbeddingQueue::queue_job`
(embedding_queue.rs lines 103-137): run the id walk starting from
`size = queue_size`, `current_idx = 0`, `last_idx = 0`, then push a trailing
fragment iff `current_idx != last_idx`.  Returns the new pending queue and
the list of flushed queues (one per embed call issued). -/
def queue_job_embed (fid : Nat) (ids : List Nat) (q : List FileFragment) :
    List FileFragment × List (List FileFragment) :=
  let r := embedWalk fid ids (queue_size q) 0 0 q
  if r.current_idx ≠ r.last_idx then
    (r.queue ++ [⟨fid, r.current_idx, r.last_idx⟩], r.flushes)
  else
    (r.queue, r.flushes)

/-- An `EmbeddingJob` (embedding_queue.rs lines 8-13), with the `Embed` file
context abstracted to its id and its `document_ids()` snapshot. -/
inductive EmbeddingJob where
  | embed (fid : Nat) (ids : List Nat)
  | flush
  deriving DecidableEq, Repr

/-- One `queue_job` call on the pending queue: the `Embed` arm runs the id
walk; the `Flush` arm takes the whole queue and flushes it. -/
def jobStep (q : List FileFragment) : EmbeddingJob → List FileFragment × List (List FileFragment)
  | .embed fid ids => queue_job_embed fid ids q
  | .flush => ([], [q])

/-- Run a sequence of `queue_job` calls from a given pending queue,
collecting every queue handed to `flush_queue`. -/
def runJobsAux : List EmbeddingJob → List FileFragment → List FileFragment × List (List FileFragment)
  | [], q => (q, [])
  | j :: rest, q =>
    let s := jobStep q j
    let r := runJobsAux rest s.1
    (r.1, s.2 ++ r.2)

/-- Run a sequence of `queue_job` calls from the empty pending queue. -/
def runJobs (jobs : List EmbeddingJob) : List FileFragment × List (List FileFragment) :=
  runJobsAux jobs []

theorem getLastD_cons_eq (a d : Nat) (l : List Nat) : (a :: l).getLastD d = l.getLastD a := by
  cases l with
  | nil => rfl
  | cons b u =>
    have hx : (b :: u).getLast?.isSome := by
      rw [List.getLast?_isSome]
      simp
    obtain ⟨x, hx⟩ := Option.isSome_iff_exists.mp hx
    simp [List.getLastD_eq_getLast?, List.getLast?_cons_cons, hx]

/-- If the size counter can never hit 10 during the walk, no flush happens:
the queue and `current_idx` are unchanged and `last_idx` becomes the last
walked id. -/
theorem embedWalk_no_flush (fid : Nat) (ids : List Nat) (s c l : Nat) (q : List FileFragment)
    (h : ∀ m, m < ids.length → s + m + 1 ≠ 10) :
    embedWalk fid ids s c l q = ⟨q, [], c, ids.getLastD l⟩ := by
  induction ids generalizing s l with
  | nil => rfl
  | cons idx rest ih =>
    have h0 : ¬(s + 1 = 10) := by
      have := h 0 (by simp)
      omega
    simp only [embedWalk, if_neg h0]
    rw [ih (s + 1) idx]
    · rw [getLastD_cons_eq]
    · intro m hm
      have := h (m + 1) (by simpa using Nat.succ_lt_succ hm)
      omega

/-- If the size counter does hit 10 during the walk (entry size at most 9 and
enough ids), exactly one flush happens: it hands over the entry queue plus
the fragment from `current_idx` to the id at which size reached 10, the
remaining queue is empty except for nothing, `current_idx` ends at that id
and `last_idx` at the last walked id. -/
theorem embedWalk_one_flush (fid : Nat) (ids : List Nat) (s c l : Nat) (q : List FileFragment)
    (h1 : s ≤ 9) (h2 : 10 ≤ s + ids.length) :
    embedWalk fid ids s c l q =
      ⟨[], [q ++ [⟨fid, c, ids.getD (9 - s) 0⟩]], ids.getD (9 - s) 0,
        (ids.drop (10 - s)).getLastD (ids.getD (9 - s) 0)⟩ := by
  induction ids generalizing s l q with
  | nil => simp at h2; omega
  | cons idx rest ih =>
    by_cases hs : s = 9
    · subst hs
      simp only [embedWalk, if_pos rfl]
      rw [embedWalk_no_flush fid rest 10 idx idx [] (by intro m hm; omega)]
      simp
    · have h0 : ¬(s + 1 = 10) := by omega
      simp only [embedWalk, if_neg h0]
      rw [ih (s + 1) idx q (by omega) (by simp at h2 ⊢; omega)]
      have e1 : 9 - s = (8 - s) + 1 := by omega
      have e2 : 10 - s = (9 - s) + 1 := by omega
      have e3 : 9 - (s + 1) = 8 - s := by omega
      have e4 : 10 - (s + 1) = 9 - s := by omega
      simp only [e1, e2, e3, e4, List.getD_cons_succ, List.drop_succ_cons]

/-- `queue_size` counts one more than the flushed span count per fragment. -/
theorem queue_size_eq_spanCount_add_length (q : List FileFragment) :
    queue_size q = spanCount q + q.length := by
  induction q with
  | nil => rfl
  | cons f t ih =>
    simp only [queue_size, spanCount, List.map_cons, List.sum_cons, List.length_cons] at *
    omega

theorem spanCount_append (a b : List FileFragment) :
    spanCount (a ++ b) = spanCount a + spanCount b := by
  simp [spanCount]

/-- A list whose fragments all have a strictly larger end index flushes at
least one span per fragment. -/
theorem length_le_spanCount (q : List FileFragment)
    (h : ∀ fr ∈ q, fr.start_idx < fr.end_idx) : q.length ≤ spanCount q := by
  induction q with
  | nil => simp [spanCount]
  | cons f t ih =>
    have hf := h f (List.mem_cons_self f t)
    have ht := ih (fun fr hfr => h fr (List.mem_cons_of_mem f hfr))
    have hs : spanCount (f :: t) = (f.end_idx - f.start_idx) + spanCount t := by
      simp [spanCount]
    rw [hs, List.length_cons]
    omega

theorem getLastD_mem (l : List Nat) (d : Nat) (h : l ≠ []) : l.getLastD d ∈ l := by
  induction l generalizing d with
  | nil => exact absurd rfl h
  | cons a t ih =>
    rw [List.getLastD_cons]
    rcases t with _ | ⟨b, u⟩
    · simp [List.getLastD]
    · exact List.mem_cons_of_mem a (ih a (by simp))

/-- In a strictly increasing list of naturals bounded below by `a`, the entry
at position `i` is at least `a + i`. -/
theorem pairwise_get_lower (l : List Nat) (hl : l.Pairwise (· < ·)) :
    ∀ (a : Nat), (∀ x ∈ l, a ≤ x) → ∀ i (h : i < l.length), a + i ≤ l.get ⟨i, h⟩ := by
  induction l with
  | nil => intro a _ i h; simp at h
  | cons b t ih =>
    intro a ha i h
    rcases List.pairwise_cons.mp hl with ⟨hb, ht⟩
    cases i with
    | zero => simpa using ha b (by simp)
    | succ i =>
      have hstep : ∀ x ∈ t, a + 1 ≤ x := by
        intro x hx
        have h1 : a ≤ b := ha b (by simp)
        have h2 : b < x := hb x hx
        omega
      have := ih ht (a + 1) hstep i (by simpa using Nat.lt_of_succ_lt_succ h)
      simpa [Nat.add_assoc, Nat.add_comm 1 i] using this

/-- Invariant of the pending queue between `queue_job` calls: every stored
fragment has a strictly larger end index (so it contributes at least one
span text to a flush) and its end index is a valid slot of its file. -/
def QueueInv (flen : Nat → Nat) (q : List FileFragment) : Prop :=
  ∀ fr ∈ q, fr.start_idx < fr.end_idx ∧ fr.end_idx < flen fr.fileId

/-- Safety of one flushed queue: the fragment count does not exceed the
number of collected span texts (so `embeddings[i]` with `i` the per-fragment
counter is defined when the provider returns one vector per text), and every
fragment's written slot range `start_idx..end_idx` lies inside its file. -/
def FlushSafe (flen : Nat → Nat) (Q : List FileFragment) : Prop :=
  Q.length ≤ spanCount Q ∧
    ∀ fr ∈ Q, fr.start_idx ≤ fr.end_idx ∧ fr.end_idx < flen fr.fileId

/-- Well-formedness of a job handed to the queue: an `Embed` job's id list is
strictly increasing and stays below the file's slot count, which is what
`FileContext::document_ids` always produces. -/
def goodJob (flen : Nat → Nat) : EmbeddingJob → Prop
  | .embed fid ids => ids.Pairwise (· < ·) ∧ ∀ i ∈ ids, i < flen fid
  | .flush => True

theorem flushSafe_of_inv (flen : Nat → Nat) (q : List FileFragment)
    (hq : QueueInv flen q) : FlushSafe flen q := by
  refine ⟨length_le_spanCount q (fun fr hfr => (hq fr hfr).1), ?_⟩
  intro fr hfr
  exact ⟨Nat.le_of_lt (hq fr hfr).1, (hq fr hfr).2⟩

/-- `queue_job` on an `Embed` whose walk triggers the one possible flush:
the flush hands over the entry queue plus the fragment `0..idx` with `idx`
the id at which size reached 10, and the new pending queue holds the one
trailing fragment when `current_idx ≠ last_idx`. -/
theorem queue_job_embed_eq_one_flush (fid : Nat) (ids : List Nat) (q : List FileFragment)
    (h1 : queue_size q ≤ 9) (h2 : 10 ≤ queue_size q + ids.length) :
    queue_job_embed fid ids q =
      ((if ids.getD (9 - queue_size q) 0 ≠
            (ids.drop (10 - queue_size q)).getLastD (ids.getD (9 - queue_size q) 0) then
          [(⟨fid, ids.getD (9 - queue_size q) 0,
             (ids.drop (10 - queue_size q)).getLastD (ids.getD (9 - queue_size q) 0)⟩ :
              FileFragment)]
        else []),
       [q ++ [⟨fid, 0, ids.getD (9 - queue_size q) 0⟩]]) := by
  unfold queue_job_embed
  rw [embedWalk_one_flush fid ids (queue_size q) 0 0 q h1 h2]
  dsimp only
  by_cases hg : ids.getD (9 - queue_size q) 0 ≠
      (ids.drop (10 - queue_size q)).getLastD (ids.getD (9 - queue_size q) 0)
  · rw [if_pos hg, if_pos hg]
    rfl
  · rw [if_neg hg, if_neg hg]

/-- `queue_job` on an `Embed` whose walk cannot reach size 10: no flush, and
the trailing fragment `0..last_idx` is appended iff `last_idx ≠ 0`. -/
theorem queue_job_embed_eq_no_flush (fid : Nat) (ids : List Nat) (q : List FileFragment)
    (h : ¬(queue_size q ≤ 9 ∧ 10 ≤ queue_size q + ids.length)) :
    queue_job_embed fid ids q =
      ((if (0 : Nat) ≠ ids.getLastD 0 then q ++ [⟨fid, 0, ids.getLastD 0⟩] else q), []) := by
  unfold queue_job_embed
  rw [embedWalk_no_flush fid ids (queue_size q) 0 0 q (by intro m hm; omega)]
  dsimp only
  by_cases hg : (0 : Nat) ≠ ids.getLastD 0
  · rw [if_pos hg, if_pos hg]
  · rw [if_neg hg, if_neg hg]

/-- One `Embed` step preserves the queue invariant, and the flush it may
issue is safe. -/
theorem queue_job_embed_preserves (flen : Nat → Nat) (fid : Nat) (ids : List Nat)
    (q : List FileFragment) (hq : QueueInv flen q)
    (hids : ids.Pairwise (· < ·)) (hbound : ∀ i ∈ ids, i < flen fid) :
    QueueInv flen (queue_job_embed fid ids q).1 ∧
      ∀ Q ∈ (queue_job_embed fid ids q).2, FlushSafe flen Q := by
  by_cases hf : queue_size q ≤ 9 ∧ 10 ≤ queue_size q + ids.length
  · rw [queue_job_embed_eq_one_flush fid ids q hf.1 hf.2]
    have hlt : 9 - queue_size q < ids.length := by omega
    have hidx_get : ids.getD (9 - queue_size q) 0 = ids[9 - queue_size q] :=
      List.getD_eq_getElem ids 0 hlt
    have hidx_mem : ids.getD (9 - queue_size q) 0 ∈ ids := by
      rw [hidx_get]
      exact List.getElem_mem hlt
    have hidx_ge : 9 - queue_size q ≤ ids.getD (9 - queue_size q) 0 := by
      rw [hidx_get]
      have h0 := pairwise_get_lower ids hids 0 (fun x _ => Nat.zero_le x)
        (9 - queue_size q) hlt
      simpa [List.get_eq_getElem] using h0
    constructor
    · dsimp only
      by_cases hg : ids.getD (9 - queue_size q) 0 ≠
          (ids.drop (10 - queue_size q)).getLastD (ids.getD (9 - queue_size q) 0)
      · rw [if_pos hg]
        intro fr hfr
        simp only [List.mem_singleton] at hfr
        subst hfr
        have hdropne : ids.drop (10 - queue_size q) ≠ [] := by
          intro hnil
          exact hg (by rw [hnil]; rfl)
        have hLdrop := getLastD_mem (ids.drop (10 - queue_size q))
          (ids.getD (9 - queue_size q) 0) hdropne
        have hLmem : (ids.drop (10 - queue_size q)).getLastD
            (ids.getD (9 - queue_size q) 0) ∈ ids := List.mem_of_mem_drop hLdrop
        refine ⟨?_, hbound _ hLmem⟩
        obtain ⟨j, hj, hjL⟩ := List.mem_iff_getElem.mp hLdrop
        have hjlen : 10 - queue_size q + j < ids.length := by
          have := (List.length_drop (10 - queue_size q) ids) ▸ hj
          omega
        have hdj : (ids.drop (10 - queue_size q))[j] = ids[10 - queue_size q + j] :=
          List.getElem_drop ids
        have hmono : ids[9 - queue_size q] < ids[10 - queue_size q + j] :=
          List.pairwise_iff_getElem.mp hids _ _ hlt hjlen (by omega)
        show ids.getD (9 - queue_size q) 0 <
          (ids.drop (10 - queue_size q)).getLastD (ids.getD (9 - queue_size q) 0)
        rw [← hjL, hdj, hidx_get]
        exact hmono
      · rw [if_neg hg]
        intro fr hfr
        simp at hfr
    · intro Q hQ
      dsimp only at hQ
      simp only [List.mem_singleton] at hQ
      subst hQ
      have hqk := queue_size_eq_spanCount_add_length q
      have hq1 := length_le_spanCount q (fun fr hfr => (hq fr hfr).1)
      constructor
      · rw [spanCount_append, List.length_append]
        have hone : spanCount [(⟨fid, 0, ids.getD (9 - queue_size q) 0⟩ : FileFragment)] =
            ids.getD (9 - queue_size q) 0 := by
          simp [spanCount]
        rw [hone]
        simp only [List.length_singleton]
        omega
      · intro fr hfr
        rcases List.mem_append.mp hfr with h | h
        · exact ⟨Nat.le_of_lt (hq fr h).1, (hq fr h).2⟩
        · simp only [List.mem_singleton] at h
          subst h
          exact ⟨Nat.zero_le _, hbound _ hidx_mem⟩
  · rw [queue_job_embed_eq_no_flush fid ids q hf]
    refine ⟨?_, by intro Q hQ; simp at hQ⟩
    dsimp only
    by_cases hg : (0 : Nat) ≠ ids.getLastD 0
    · rw [if_pos hg]
      intro fr hfr
      rcases List.mem_append.mp hfr with h | h
      · exact hq fr h
      · simp only [List.mem_singleton] at h
        subst h
        have hne : ids ≠ [] := by
          intro hnil
          exact hg (by rw [hnil]; rfl)
        exact ⟨Nat.pos_of_ne_zero (Ne.symm hg), hbound _ (getLastD_mem ids 0 hne)⟩
    · rw [if_neg hg]
      exact hq

/-- One `queue_job` call preserves the queue invariant and only issues safe
flushes. -/
theorem jobStep_preserves (flen : Nat → Nat) (q : List FileFragment) (j : EmbeddingJob)
    (hq : QueueInv flen q) (hj : goodJob flen j) :
    QueueInv flen (jobStep q j).1 ∧ ∀ Q ∈ (jobStep q j).2, FlushSafe flen Q := by
  cases j with
  | embed fid ids => exact queue_job_embed_preserves flen fid ids q hq hj.1 hj.2
  | flush =>
    refine ⟨?_, ?_⟩
    · intro fr hfr
      simp [jobStep] at hfr
    · intro Q hQ
      simp only [jobStep, List.mem_singleton] at hQ
      subst hQ
      exact flushSafe_of_inv flen Q hq

/-- Any run of `queue_job` calls from a queue satisfying the invariant keeps
it and only issues safe flushes. -/
theorem runJobsAux_preserves (flen : Nat → Nat) :
    ∀ (jobs : List EmbeddingJob) (q : List FileFragment), QueueInv flen q →
      (∀ j ∈ jobs, goodJob flen j) →
      QueueInv flen (runJobsAux jobs q).1 ∧
        ∀ Q ∈ (runJobsAux jobs q).2, FlushSafe flen Q := by
  intro jobs
  induction jobs with
  | nil =>
    intro q hq _
    refine ⟨hq, ?_⟩
    intro Q hQ
    simp [runJobsAux] at hQ
  | cons j rest ih =>
    intro q hq hjobs
    have hstep := jobStep_preserves flen q j hq (hjobs j (List.mem_cons_self j rest))
    have hrest := ih (jobStep q j).1 hstep.1
      (fun j2 hj2 => hjobs j2 (List.mem_cons_of_mem j hj2))
    refine ⟨hrest.1, ?_⟩
    intro Q hQ
    simp only [runJobsAux, List.mem_append] at hQ
    rcases hQ with h | h
    · exact hstep.2 Q h
    · exact hrest.2 Q h

theorem emptyIds_lower (es : List EmbeddingVec) :
    ∀ (i : Nat), ∀ x ∈ emptyIds es i, i ≤ x := by
  induction es with
  | nil =>
    intro i x hx
    simp [emptyIds] at hx
  | cons e t ih =>
    intro i x hx
    simp only [emptyIds] at hx
    by_cases he : e.isEmpty
    · rw [if_pos he] at hx
      rcases List.mem_cons.mp hx with h | h
      · omega
      · have := ih (i + 1) x h
        omega
    · rw [if_neg he] at hx
      have := ih (i + 1) x hx
      omega

theorem emptyIds_upper (es : List EmbeddingVec) :
    ∀ (i : Nat), ∀ x ∈ emptyIds es i, x < i + es.length := by
  induction es with
  | nil =>
    intro i x hx
    simp [emptyIds] at hx
  | cons e t ih =>
    intro i x hx
    simp only [emptyIds] at hx
    rw [List.length_cons]
    by_cases he : e.isEmpty
    · rw [if_pos he] at hx
      rcases List.mem_cons.mp hx with h | h
      · omega
      · have := ih (i + 1) x h
        omega
    · rw [if_neg he] at hx
      have := ih (i + 1) x hx
      omega

theorem emptyIds_pairwise (es : List EmbeddingVec) :
    ∀ (i : Nat), (emptyIds es i).Pairwise (· < ·) := by
  induction es with
  | nil =>
    intro i
    simp [emptyIds]
  | cons e t ih =>
    intro i
    simp only [emptyIds]
    by_cases he : e.isEmpty
    · rw [if_pos he]
      refine List.pairwise_cons.mpr ⟨?_, ih (i + 1)⟩
      intro x hx
      have := emptyIds_lower t (i + 1) x hx
      omega
    · rw [if_neg he]
      exact ih (i + 1)

/-- The id list an `Embed` job carries is always a `document_ids()` snapshot,
and such a snapshot is strictly increasing and bounded by the slot count:
every job the pipeline actually enqueues is a good job. -/
theorem document_ids_goodJob (fc : FileContext) (flen : Nat → Nat) (fid : Nat)
    (h : flen fid = fc.embeddings.length) :
    goodJob flen (.embed fid fc.document_ids) := by
  refine ⟨emptyIds_pairwise fc.embeddings 0, ?_⟩
  intro i hi
  have := emptyIds_upper fc.embeddings 0 i hi
  omega

/-- Shared-file lookup standing in for `fragment.file_context.lock()`. -/
def fileAt (files : List FileContext) (fid : Nat) : FileContext :=
  files.getD fid default

/-- The span-collection loop of `EmbeddingQueue::flush_queue`
(embedding_queue.rs lines 58-65): for each fragment, the contents of
`documents[idx]` for `idx` in `start_idx..end_idx` — note the EXCLUSIVE
upper bound, exactly as in the source. -/
def collectSpans (files : List FileContext) : List FileFragment → List String
  | [] => []
  | fr :: rest =>
    ((List.range' fr.start_idx (fr.end_idx - fr.start_idx)).map
        (fun idx => ((fileAt files fr.fileId).documents.getD idx default).content))
      ++ collectSpans files rest

theorem collectSpans_length (files : List FileContext) (q : List FileFragment) :
    (collectSpans files q).length = spanCount q := by
  induction q with
  | nil => rfl
  | cons fr t ih =>
    simp only [collectSpans, List.length_append, List.length_map]
    rw [ih]
    simp [spanCount]

/-- Write one embedding into every slot of the given index list
(the `for idx in fragment.start_idx..(fragment.end_idx + 1)` loop body). -/
def writeRange (emb : EmbeddingVec) (idxs : List Nat) (es : List EmbeddingVec) :
    List EmbeddingVec :=
  idxs.foldl (fun acc idx => acc.set idx emb) es

/-- The write-back loop of `EmbeddingQueue::flush_queue` (embedding_queue.rs
lines 77-92): for each fragment, write `embeddings[i]` — `i` incremented once
PER FRAGMENT, as in the source — into every slot from `start_idx` to
`end_idx` INCLUSIVE, then publish the file id iff the file is now
`complete()`.  Returns the updated files and the published file ids. -/
def writeBack (embs : List EmbeddingVec) :
    List FileFragment → Nat → List FileContext → List FileContext × List Nat
  | [], _, files => (files, [])
  | fr :: rest, i, files =>
    let fc := fileAt files fr.fileId
    let newEmbs := writeRange (embs.getD i default)
      (List.range' fr.start_idx (fr.end_idx + 1 - fr.start_idx)) fc.embeddings
    let fc2 : FileContext := { fc with embeddings := newEmbs }
    let files2 := files.set fr.fileId fc2
    let r := writeBack embs rest (i + 1) files2
    (r.1, (if fc2.complete then [fr.fileId] else []) ++ r.2)

/-- `EmbeddingQueue::flush_queue` (embedding_queue.rs lines 53-94): collect
the span texts, make one batched call to the provider, write the returned
vectors back and publish the files that became complete. -/
def flush_queue (provider : List String → List EmbeddingVec)
    (files : List FileContext) (q : List FileFragment) : List FileContext × List Nat :=
  writeBack (provider (collectSpans files q)) q 0 files

/-- A concrete provider: one vector per text, the vector determined by the
text (its length), so distinct contents get distinct vectors. -/
def embedByLen (ts : List String) : List EmbeddingVec :=
  ts.map (fun t => [(t.length : Int)])

/-- `DirectoryState` (semantic_index.rs lines 20-26), reduced to its
observable parts: the watch-channel job counter and the number of
`notify.notify_one()` invocations so far. -/
structure DirectoryState where
  job_count : Nat
  notify_count : Nat
  deriving DecidableEq, Repr

/-- `DirectoryState::new` (semantic_index.rs lines 29-38): the watch channel
starts at 0 and the notifier is fresh. -/
def DirectoryState.fresh : DirectoryState := ⟨0, 0⟩

/-- `DirectoryState::new_job` (semantic_index.rs lines 40-43). -/
def new_job (s : DirectoryState) : DirectoryState :=
  { s with job_count := s.job_count + 1 }

/-- `DirectoryState::job_dropped` (semantic_index.rs lines 45-53): the
decrement `current_count - 1` is on a usize with no zero guard, so `none`
models the underflow when the counter is already 0.  When the
post-decrement value is 0, `notify_one` is invoked once more. -/
def job_dropped (s : DirectoryState) : Option DirectoryState :=
  if s.job_count = 0 then none
  else
    let new_count := s.job_count - 1
    some ⟨new_count, if new_count = 0 then s.notify_count + 1 else s.notify_count⟩

/-- `IndexingStatus` (semantic_index.rs lines 65-70). -/
inductive IndexingStatus where
  | Indexing (jobs_outstanding : Nat)
  | Indexed
  | NotIndexed
  deriving DecidableEq, Repr

/-- `DirectoryState::status` (semantic_index.rs lines 55-62). -/
def DirectoryState.status (s : DirectoryState) : IndexingStatus :=
  if s.job_count = 0 then IndexingStatus.Indexed
  else IndexingStatus.Indexing s.job_count

/-- One lifecycle event of a Directory Job: `new_job()` is called by the
parse task after each successful parse (semantic_index.rs line 123);
`job_dropped()` by the `Drop` impl of `FileContext` (strategy.rs lines
98-102). -/
inductive DirEvent where
  | new
  | dropped
  deriving DecidableEq, Repr

/-- Run a trace of counter events; `none` as soon as a decrement
underflows. -/
def runDir : List DirEvent → DirectoryState → Option DirectoryState
  | [], s => some s
  | .new :: r, s => runDir r (new_job s)
  | .dropped :: r, s => (job_dropped s).bind (fun s2 => runDir r s2)

def countNew : List DirEvent → Nat
  | [] => 0
  | .new :: r => countNew r + 1
  | .dropped :: r => countNew r

def countDropped : List DirEvent → Nat
  | [] => 0
  | .new :: r => countDropped r
  | .dropped :: r => countDropped r + 1

/-- Every `job_dropped()` is paired with a prior `new_job()`: along the
trace, each dropped event sees a positive running counter. -/
def BalancedTrace : List DirEvent → Nat → Bool
  | [], _ => true
  | .new :: r, c => BalancedTrace r (c + 1)
  | .dropped :: r, c => decide (1 ≤ c) && BalancedTrace r (c - 1)

/-- The number of positive-to-zero transitions of the running counter along
a trace. -/
def zeroTransitions : List DirEvent → Nat → Nat
  | [], _ => 0
  | .new :: r, c => zeroTransitions r (c + 1)
  | .dropped :: r, c => (if c = 1 then 1 else 0) + zeroTransitions r (c - 1)

/-- On a balanced trace, `runDir` never underflows; the final counter is
news minus drops and `notify_one` has been invoked once per
positive-to-zero transition. -/
theorem runDir_balanced (tr : List DirEvent) :
    ∀ (s : DirectoryState), BalancedTrace tr s.job_count = true →
      runDir tr s = some ⟨s.job_count + countNew tr - countDropped tr,
        s.notify_count + zeroTransitions tr s.job_count⟩ := by
  induction tr with
  | nil =>
    intro s _
    simp [runDir, countNew, countDropped, zeroTransitions]
  | cons e r ih =>
    intro s hb
    cases e with
    | new =>
      have hb2 : BalancedTrace r (new_job s).job_count = true := by
        simpa [BalancedTrace, new_job] using hb
      have hr := ih (new_job s) hb2
      rw [runDir, hr]
      simp only [new_job, countNew, countDropped, zeroTransitions,
        Option.some.injEq, DirectoryState.mk.injEq]
      constructor
      · omega
      · trivial
    | dropped =>
      simp only [BalancedTrace, Bool.and_eq_true, decide_eq_true_eq] at hb
      obtain ⟨hc, hb2⟩ := hb
      have hnz : ¬(s.job_count = 0) := by omega
      rw [runDir, job_dropped, if_neg hnz]
      have hr := ih ⟨s.job_count - 1,
        if s.job_count - 1 = 0 then s.notify_count + 1 else s.notify_count⟩ hb2
      simp only [Option.bind_some] at *
      rw [Option.some_bind, hr]
      simp only [countNew, countDropped, zeroTransitions,
        Option.some.injEq, DirectoryState.mk.injEq]
      constructor
      · omega
      · split_ifs <;> omega

/-- A `file` row (surreal_db.rs lines 77-80), with its record id. -/
structure FileRow where
  id : Nat
  path : String
  deriving DecidableEq, Repr

/-- A `span` row (surreal_db.rs lines 64-70), with its record id. -/
structure SpanRow where
  id : Nat
  start_byte : Nat
  end_byte : Nat
  sha : List Nat
  embedding : EmbeddingVec
  deriving DecidableEq, Repr

/-- The persisted state: file rows, span rows, `owns` edges
(directory id, file id) and `contains` edges (file id, span id), plus a
fresh-id counter standing in for record-id generation. -/
structure VectorStore where
  files : List FileRow
  spans : List SpanRow
  owns : List (Nat × Nat)
  contains : List (Nat × Nat)
  nextId : Nat
  deriving DecidableEq, Repr

/-- Whether a `contains` edge's `in` record currently resolves to a file row
with the given path (the `in.path = path` condition of the executed DELETE;
a dangling edge whose file row is already gone does not match). -/
def edgeInPath (files : List FileRow) (e : Nat × Nat) (path : String) : Bool :=
  files.any (fun f => f.id == e.1 && f.path == path)

/-- `delete_file_and_spans` (surreal_db.rs lines 318-345) as executed: the
span DELETE built on line 322 is immediately shadowed by the file DELETE on
line 327 and never runs.  What executes is (1) delete files with the path,
(2) delete `contains` edges whose `in.path` matches, (3) delete files with
the path again.  Span rows are never touched. -/
def delete_file_and_spans (st : VectorStore) (path : String) : VectorStore :=
  let st1 := { st with files := st.files.filter (fun f => f.path != path) }
  let st2 :=
    { st1 with contains := st1.contains.filter (fun e => !(edgeInPath st1.files e path)) }
  { st2 with files := st2.files.filter (fun f => f.path != path) }

/-- `create_file` (surreal_db.rs lines 265-285): insert a file row and
relate it to its directory. -/
def create_file (st : VectorStore) (path : String) (directory_id : Nat) :
    VectorStore × Nat :=
  let file_id := st.nextId
  ({ st with files := st.files ++ [⟨file_id, path⟩],
             owns := st.owns ++ [(directory_id, file_id)],
             nextId := file_id + 1 }, file_id)

/-- `create_span` (surreal_db.rs lines 287-316): insert a span row and
relate it to its file. -/
def create_span (st : VectorStore) (sp : SpanRow) (file_id : Nat) : VectorStore :=
  let span_id := st.nextId
  { st with spans := st.spans ++ [{ sp with id := span_id }],
            contains := st.contains ++ [(file_id, span_id)],
            nextId := span_id + 1 }

/-- `create_file_and_spans` (surreal_db.rs lines 347-379): delete the
previous version of the file, zip embeddings with documents into span data,
insert the file row, then insert each span row. -/
def create_file_and_spans (st : VectorStore) (directory_id : Nat) (path : String)
    (documents : List ContextDocument) (embeddings : List EmbeddingVec) : VectorStore :=
  let st1 := delete_file_and_spans st path
  let data := (embeddings.zip documents).map
    (fun p => (⟨0, p.2.start_byte, p.2.end_byte, p.2.sha, p.1⟩ : SpanRow))
  let r := create_file st1 path directory_id
  data.foldl (fun s sp => create_span s sp r.2) r.1

/-- `VectorDatabase::get_embeddings_for_directory` (surreal_db.rs lines
203-208): returns `HashMap::new()`, ignoring both the store and the path. -/
def get_embeddings_for_directory (_st : VectorStore) (_path : String) :
    List (List Nat × EmbeddingVec) :=
  []

def lookupSha (cache : List (List Nat × EmbeddingVec)) (sha : List Nat) :
    Option EmbeddingVec :=
  (cache.find? (fun p => p.1 == sha)).map (fun p => p.2)

/-- The sha-cache fill of the parse task (semantic_index.rs lines 126-130):
for each enumerated document whose sha is in the map, overwrite the
corresponding embedding slot. -/
def fillCachedEmbeddings (cache : List (List Nat × EmbeddingVec)) (fc : FileContext) :
    FileContext :=
  let newEmbs := fc.documents.enum.foldl (fun es p =>
    match lookupSha cache p.2.sha with
    | some e => es.set p.1 e
    | none => es) fc.embeddings
  { fc with embeddings := newEmbs }

/-- `get_sha` (strategy.rs lines 14-18) digests the content with SHA-256.
The sha2 crate is an external capability; the digest is modelled as the
injective byte encoding of the content, which preserves the only property
the pipeline uses (distinct contents give distinct shas). -/
def get_sha (content : String) : List Nat :=
  content.toList.map Char.toNat

/-- `get_treesitter_language` (strategy.rs lines 20-28): only the "rust"
grammar exists; anything else is an error. -/
def get_treesitter_language (language_name : String) : Except String Unit :=
  if language_name = "rust" then Except.ok ()
  else Except.error ("no treesitter parser available for " ++ language_name)

/-- One capture of the abstract tree-sitter query evaluation: its capture
index and the byte range of its node. -/
structure QueryCapture where
  index : Nat
  start_byte : Nat
  end_byte : Nat
  deriving DecidableEq, Repr

/-- The slice `content[start_byte..end_byte]` (modelled on characters). -/
def sliceBytes (content : String) (s e : Nat) : String :=
  String.mk ((content.toList.drop s).take (e - s))

/-- The prompt format of strategy.rs lines 50-52 (the single-quote
characters around the path are written as \x27 escapes). -/
def formatPrompt (path language_name span : String) : String :=
  "The below is a code snippet from the \x27" ++ path ++ "\x27 file.\n```" ++
    language_name ++ "\n" ++ span ++ "\n```"

/-- `parse_treesitter` (strategy.rs lines 30-65): fetch the grammar, then
for each query capture whose index is 0 emit one `ContextDocument` with the
node's byte range, the formatted prompt as content, and its sha.  The
tree-sitter query evaluation is the abstract span-extraction capability; its
matches are the `query_matches` input. -/
def parse_treesitter (content : String) (language_name : String) (_query : String)
    (path : String) (query_matches : List QueryCapture) :
    Except String (List ContextDocument) :=
  match get_treesitter_language language_name with
  | .error e => .error e
  | .ok _ =>
    .ok ((query_matches.filter (fun c => c.index == 0)).map (fun c =>
      let span := sliceBytes content c.start_byte c.end_byte
      let filled := formatPrompt path language_name span
      ⟨c.start_byte, c.end_byte, filled, get_sha filled⟩))

/-- `parse_file` (strategy.rs lines 103-117): read the file (`none` content
models an unreadable file), parse it, and pair each document with an
initially-empty embedding slot. -/
def parse_file (path : String) (contents : Option String)
    (language_name query : String) (query_matches : List QueryCapture) :
    Except String FileContext :=
  match contents with
  | none => .error "failed to read file"
  | some content =>
    match parse_treesitter content language_name query path query_matches with
    | .error e => .error e
    | .ok documents => .ok ⟨path, documents, documents.map (fun _ => [])⟩

def dC1a : ContextDocument := ⟨0, 1, "a", [97]⟩

def dC1b : ContextDocument := ⟨2, 4, "bb", [98, 98]⟩

def fcC1 : FileContext := ⟨"f.rs", [dC1a, dC1b], [[], []]⟩

/-- C1: the claim says a flush collects the span texts of each fragment's
requested slot indices, issues one batched embed call, and writes the
returned vectors back so that slot i receives the provider's vector for
document i's content.  Evaluating `flush_queue` at the failing input — one
pending fragment 0..1 over a two-document file — shows the code collects
only document 0's text (the upper bound is exclusive), and writes the
per-FRAGMENT vector `embeddings[0]` into both slots 0 and 1: slot 1 gets
the vector for document 0's content [1], not the provider's vector for
document 1's content [2], which was never requested. -/
theorem C1_flush_queue_misassigns_vectors :
    collectSpans [fcC1] [⟨0, 0, 1⟩] = ["a"] ∧
    embedByLen ["a", "bb"] = [[1], [2]] ∧
    flush_queue embedByLen [fcC1] [⟨0, 0, 1⟩] =
      ([⟨"f.rs", [dC1a, dC1b], [[1], [1]]⟩], [0]) := by
  decide

/-- C2: the claim says the enqueue walk flushes and resets the size counter
to 0 every time it reaches BATCH_SPANS = 10, so 20 pending spans yield two
embed calls.  Evaluating `queue_job` at the failing input — one Embed job
over a file with 20 empty slots — shows the size counter is never reset, so
`size == 10` can only hit once: exactly ONE embed call is issued (flushing
fragment 0..9) and the overlapping fragment 9..19 is left pending. -/
theorem C2_twenty_spans_issue_one_embed_call :
    queue_job_embed 0 (List.range 20) [] = ([⟨0, 9, 19⟩], [[⟨0, 0, 9⟩]]) ∧
    (queue_job_embed 0 (List.range 20) []).2.length ≠ 2 := by
  decide

/-- C3: the claim says a non-empty current fragment — in particular one
covering exactly one empty slot — is pushed to the pending list when the
walk ends.  Evaluating `queue_job` at the failing input — a file whose only
empty slot is index 0 — shows the trailing push is guarded by
`current_idx != last_idx`, which is false here (both are 0): the fragment
is silently discarded, nothing is pushed and nothing is flushed, so the
file can never complete. -/
theorem C3_single_slot_fragment_is_dropped :
    queue_job_embed 3 [0] [] = ([], []) := by
  decide

def stC4 : VectorStore :=
  ⟨[⟨0, "p.rs"⟩], [⟨1, 0, 5, [9], [7]⟩], [(42, 0)], [(0, 1)], 2⟩

def dC4 : ContextDocument := ⟨0, 6, "x", [4]⟩

/-- C4: the claim says `create_file_and_spans` first deletes all span rows
and the file row whose path matches, so no span row of the previous version
survives.  Evaluating the executed statements at the failing input — a
store holding file "p.rs" (id 0) with one span row (id 1) — shows the old
span row id 1 SURVIVES the overwrite as an orphan: the span DELETE query is
built and immediately shadowed by the file DELETE before being executed, so
only the file row and its resolvable contains edges are removed. -/
theorem C4_previous_span_rows_survive :
    create_file_and_spans stC4 42 "p.rs" [dC4] [[3]] =
      ⟨[⟨2, "p.rs"⟩], [⟨1, 0, 5, [9], [7]⟩, ⟨3, 0, 6, [4], [3]⟩],
        [(42, 0), (42, 2)], [(0, 1), (2, 3)], 4⟩ ∧
    (⟨1, 0, 5, [9], [7]⟩ : SpanRow) ∈
      (create_file_and_spans stC4 42 "p.rs" [dC4] [[3]]).spans := by
  decide

/-- C5 counterexample: the claim says notify fires at most once even if the
counter later becomes positive and returns to zero again.  On the trace
new, dropped, new, dropped the counter reaches 0 from above twice and
`notify_one` is invoked TWICE, not once. -/
theorem C5_counterexample_notify_fires_twice :
    runDir [DirEvent.new, DirEvent.dropped, DirEvent.new, DirEvent.dropped]
        DirectoryState.fresh = some ⟨0, 2⟩ ∧ ¬((2 : Nat) ≤ 1) := by
  decide

/-- C5 (amended): `job_dropped` fires notify exactly when the post-decrement
counter value is zero, hence along any balanced trace notify has fired
exactly once PER positive-to-zero transition of the counter — k firings
after k such transitions, not at most one overall. -/
theorem C5_notify_fires_once_per_zero_transition (tr : List DirEvent)
    (h : BalancedTrace tr 0 = true) :
    ∃ s, runDir tr DirectoryState.fresh = some s ∧
      s.notify_count = zeroTransitions tr 0 := by
  refine ⟨⟨countNew tr - countDropped tr, zeroTransitions tr 0⟩, ?_, rfl⟩
  have hr := runDir_balanced tr DirectoryState.fresh h
  simpa [DirectoryState.fresh] using hr

/-- Witness for the amended C5 on the concrete trace new, dropped. -/
theorem C5_notify_fires_once_per_zero_transition_witness :
    BalancedTrace [DirEvent.new, DirEvent.dropped] 0 = true ∧
    ∃ s, runDir [DirEvent.new, DirEvent.dropped] DirectoryState.fresh = some s ∧
      s.notify_count = zeroTransitions [DirEvent.new, DirEvent.dropped] 0 :=
  ⟨by decide, C5_notify_fires_once_per_zero_transition _ (by decide)⟩

/-- C6: under the pairing precondition — every `job_dropped()` is preceded
by a matching `new_job()` on the same Directory Job, which the code
arranges by calling `new_job` once per successful parse and `job_dropped`
exactly once in the `Drop` impl of `FileContext` — the unguarded decrement
never underflows: the whole trace runs to a final state whose counter is
news minus drops, hence outstanding is never negative. -/
theorem C6_outstanding_never_underflows (tr : List DirEvent)
    (h : BalancedTrace tr 0 = true) :
    ∃ s, runDir tr DirectoryState.fresh = some s ∧
      s.job_count = countNew tr - countDropped tr := by
  refine ⟨⟨countNew tr - countDropped tr, zeroTransitions tr 0⟩, ?_, rfl⟩
  have hr := runDir_balanced tr DirectoryState.fresh h
  simpa [DirectoryState.fresh] using hr

/-- Witness for C6 on the concrete trace new, new, dropped, dropped, new. -/
theorem C6_outstanding_never_underflows_witness :
    BalancedTrace
      [DirEvent.new, DirEvent.new, DirEvent.dropped, DirEvent.dropped, DirEvent.new]
      0 = true ∧
    ∃ s, runDir
        [DirEvent.new, DirEvent.new, DirEvent.dropped, DirEvent.dropped, DirEvent.new]
        DirectoryState.fresh = some s ∧
      s.job_count =
        countNew
          [DirEvent.new, DirEvent.new, DirEvent.dropped, DirEvent.dropped, DirEvent.new] -
        countDropped
          [DirEvent.new, DirEvent.new, DirEvent.dropped, DirEvent.dropped, DirEvent.new] :=
  ⟨by decide, C6_outstanding_never_underflows _ (by decide)⟩

def stC7 : VectorStore :=
  ⟨[⟨0, "f.rs"⟩], [⟨1, 0, 5, [99], [9]⟩], [(42, 0)], [(0, 1)], 2⟩

def fcC7 : FileContext := ⟨"f.rs", [⟨0, 5, "c", [99]⟩], [[]]⟩

/-- C7: the claim says re-indexing fills each document whose sha matches an
already-stored span from the store's sha-to-embedding mapping, so an
unchanged directory does not call the provider.  But
`get_embeddings_for_directory` returns the empty map for EVERY store and
path (it is `HashMap::new()`), so at the failing input — a store holding a
span with sha 99 and a walked file whose document has that very sha — the
parse-time fill changes nothing and slot 0 stays empty: the file is
submitted for embedding and the provider is called again. -/
theorem C7_reindex_calls_provider_again :
    (∀ (st : VectorStore) (p : String), get_embeddings_for_directory st p = []) ∧
    fillCachedEmbeddings (get_embeddings_for_directory stC7 "dir") fcC7 = fcC7 ∧
    FileContext.document_ids fcC7 = [0] :=
  ⟨fun _ _ => rfl, by decide, by decide⟩

/-- C8: the claim says `index_directory` on a directory with no indexable
files returns a notifier that resolves immediately and `get_status` returns
Indexed.  Evaluating the code: a fresh DirectoryState is created, no
counter event ever runs, so `status` is indeed `Indexed`, but `notify_one`
has never been invoked — the returned notifier holds no permit and awaiting
it never resolves. -/
theorem C8_empty_directory_indexed_but_notifier_unfired :
    runDir [] DirectoryState.fresh = some DirectoryState.fresh ∧
    DirectoryState.status DirectoryState.fresh = IndexingStatus.Indexed ∧
    DirectoryState.fresh.notify_count = 0 := by
  decide

/-- C9 counterexample: the claim says `parse_file` returns a NON-EMPTY
sequence of documents or an error.  Parsing readable content with the known
grammar but no item captures succeeds with the empty document sequence. -/
theorem C9_counterexample_success_with_empty_documents :
    parse_file "f.rs" (some "fn main") "rust" "(struct_item) @item" [] =
      Except.ok (⟨"f.rs", [], []⟩ : FileContext) := by
  rfl

/-- C9 (amended): `parse_file` on readable content with the known grammar
succeeds and returns one document per item capture (capture index 0) in
match order, carrying the captures' byte ranges — so the result is
byte-ascending whenever the match order is, and is possibly empty; an
unreadable file or a missing grammar is an error. -/
theorem C9_parse_returns_item_captures_in_order (content path query : String)
    (ms : List QueryCapture)
    (hsorted : (ms.filter (fun c => c.index == 0)).Pairwise
      (fun a b => a.start_byte ≤ b.start_byte)) :
    ∃ fc, parse_file path (some content) "rust" query ms = Except.ok fc ∧
      fc.documents.map (fun d => (d.start_byte, d.end_byte)) =
        (ms.filter (fun c => c.index == 0)).map (fun c => (c.start_byte, c.end_byte)) ∧
      fc.documents.Pairwise (fun a b => a.start_byte ≤ b.start_byte) ∧
      fc.embeddings.length = fc.documents.length := by
  refine ⟨_, rfl, ?_, ?_, by simp⟩
  · rw [List.map_map]
    rfl
  · exact List.Pairwise.map _ (fun a b hab => hab) hsorted

/-- Witness for the amended C9 on three concrete captures, one of which is
not an item capture. -/
theorem C9_parse_returns_item_captures_in_order_witness :
    ((([⟨0, 0, 3⟩, ⟨1, 9, 9⟩, ⟨0, 5, 9⟩] : List QueryCapture).filter
        (fun c => c.index == 0)).Pairwise (fun a b => a.start_byte ≤ b.start_byte)) ∧
    ∃ fc, parse_file "f.rs" (some "struct A;") "rust" "(struct_item) @item"
        [⟨0, 0, 3⟩, ⟨1, 9, 9⟩, ⟨0, 5, 9⟩] = Except.ok fc ∧
      fc.documents.map (fun d => (d.start_byte, d.end_byte)) =
        (([⟨0, 0, 3⟩, ⟨1, 9, 9⟩, ⟨0, 5, 9⟩] : List QueryCapture).filter
          (fun c => c.index == 0)).map (fun c => (c.start_byte, c.end_byte)) ∧
      fc.documents.Pairwise (fun a b => a.start_byte ≤ b.start_byte) ∧
      fc.embeddings.length = fc.documents.length :=
  ⟨by decide,
    C9_parse_returns_item_captures_in_order "struct A;" "f.rs" "(struct_item) @item"
      [⟨0, 0, 3⟩, ⟨1, 9, 9⟩, ⟨0, 5, 9⟩] (by decide)⟩

/-- C10: every indexing into the embeddings vectors performed by the
write-back of `flush_queue` is in bounds: for every pending-list state
reachable via `queue_job` (any sequence of well-formed jobs starting from
the empty queue), each queue handed to `flush_queue` has no more fragments
than the span texts it collects — so `embeddings[i]`, with i the
per-fragment counter, is defined whenever the provider returns one vector
per text — and every written slot index in `start_idx..end_idx + 1` is
below the file's embeddings length; hence the write-back cannot index out
of bounds. -/
theorem C10_flush_write_back_in_bounds (flen : Nat → Nat) (jobs : List EmbeddingJob)
    (hjobs : ∀ j ∈ jobs, goodJob flen j)
    (provider : List String → List EmbeddingVec)
    (hp : ∀ ts, (provider ts).length = ts.length)
    (files : List FileContext) :
    ∀ Q ∈ (runJobs jobs).2,
      Q.length ≤ (provider (collectSpans files Q)).length ∧
      ∀ fr ∈ Q, fr.end_idx < flen fr.fileId ∧
        ∀ i ∈ List.range' fr.start_idx (fr.end_idx + 1 - fr.start_idx),
          i < flen fr.fileId := by
  intro Q hQ
  have hinv : QueueInv flen ([] : List FileFragment) := by
    intro fr hfr
    simp at hfr
  have hmain := (runJobsAux_preserves flen jobs [] hinv hjobs).2 Q hQ
  refine ⟨?_, ?_⟩
  · rw [hp, collectSpans_length]
    exact hmain.1
  · intro fr hfr
    have h2 := hmain.2 fr hfr
    refine ⟨h2.2, ?_⟩
    intro i hi
    have hm := List.mem_range'_1.mp hi
    have hse := h2.1
    have hend := h2.2
    omega

/-- Witness for C10 on a concrete run: one Embed job over the 12 empty
slots of a 12-slot file, which triggers one in-walk flush. -/
theorem C10_flush_write_back_in_bounds_witness :
    (∀ j ∈ [EmbeddingJob.embed 0 (List.range 12)], goodJob (fun _ => 12) j) ∧
    (∀ ts, (embedByLen ts).length = ts.length) ∧
    ∀ Q ∈ (runJobs [EmbeddingJob.embed 0 (List.range 12)]).2,
      Q.length ≤ (embedByLen (collectSpans [] Q)).length ∧
      ∀ fr ∈ Q, fr.end_idx < 12 ∧
        ∀ i ∈ List.range' fr.start_idx (fr.end_idx + 1 - fr.start_idx), i < 12 :=
  ⟨by
      intro j hj
      simp only [List.mem_singleton] at hj
      subst hj
      exact ⟨by decide, by decide⟩,
    fun ts => by simp [embedByLen],
    C10_flush_write_back_in_bounds (fun _ => 12) [EmbeddingJob.embed 0 (List.range 12)]
      (by
        intro j hj
        simp only [List.mem_singleton] at hj
        subst hj
        exact ⟨by decide, by decide⟩)
      embedByLen (fun ts => by simp [embedByLen]) []⟩
